import Mathlib

/-!
Verification of the workload-balancing reconciliation core of the
discipline-evaluator browser extension.  The definitions below are a shallow
embedding of `StructureGenerationService.handleGenerateStructure`,
`createChaptersFromStructure` and `mapWorkTypeLabel` (src/unnamed/part_001,
lines 488-1050): the outline parser, the cleanup passes, the type
normalisation, the workload balancing loop, the evenness filler pass, the
final count / match reporting, and the hour projection.
-/

set_option maxRecDepth 4096

namespace DisciplineEvaluator

/-! ### JavaScript string primitives -/

/-- Whitespace class used by the source's `trim()` and `\s` regex classes
(restricted to the ASCII whitespace characters that can occur in the data). -/
def jsSpace (c : Char) : Bool :=
  c = ' ' || c = '\t' || c = '\n' || c = '\r' || c = '\x0b' || c = '\x0c'

/-- Model of `String.prototype.trim`: strip whitespace from both ends. -/
def jsTrim (l : List Char) : List Char :=
  ((l.dropWhile jsSpace).reverse.dropWhile jsSpace).reverse

/-- Model of `toLowerCase` for the characters occurring in the data: ASCII letters,
Cyrillic А-Я and Ё. -/
def jsLowerChar (c : Char) : Char :=
  if 'A' ≤ c ∧ c ≤ 'Z' then Char.ofNat (c.toNat + 32)
  else if 0x410 ≤ c.toNat ∧ c.toNat ≤ 0x42F then Char.ofNat (c.toNat + 32)
  else if c.toNat = 0x401 then Char.ofNat 0x451
  else c

/-- Model of `toLowerCase` on a character list. -/
def jsLower (l : List Char) : List Char := l.map jsLowerChar

/-- Boolean prefix test on character lists. -/
def isPrefixOfB : List Char → List Char → Bool
  | [], _ => true
  | _ :: _, [] => false
  | a :: as, b :: bs => a = b && isPrefixOfB as bs

/-- Boolean substring test (`String.prototype.includes`). -/
def containsSub (needle : List Char) : List Char → Bool
  | [] => needle.isEmpty
  | c :: t => isPrefixOfB needle (c :: t) || containsSub needle t

/-- Model of `s.toLowerCase().includes(needle)` with a lower-case needle literal. -/
def includesLower (needle : String) (s : String) : Bool :=
  containsSub needle.data (jsLower s.data)

/-! ### Data model (parsed outline) -/

/-- One theme line of the generated outline.  `rawName`, `label` and
`normalizedType` are filled in by the normalisation pass (source lines
669-683); the parser itself only sets `name`. -/
structure Theme where
  name : String
  rawName : String := ""
  label : Option String := none
  normalizedType : String := ""
  deriving DecidableEq, Repr

/-- One section ("chapter") of the outline. -/
structure Chapter where
  name : String
  themes : List Theme
  deriving DecidableEq, Repr

def defaultTheme : Theme := { name := "" }

def defaultChapter : Chapter := { name := "", themes := [] }

/-- All themes of all chapters, in section order then theme order. -/
def allThemes : List Chapter → List Theme
  | [] => []
  | ch :: chs => ch.themes ++ allThemes chs

/-- Count of themes with the given `normalizedType` in a theme list
(the source accumulates `currentCounts[type] += 1` over all themes). -/
def cntL (T : String) : List Theme → Nat
  | [] => 0
  | t :: ts => (if t.normalizedType = T then 1 else 0) + cntL T ts

/-- Count of themes with the given `normalizedType` across all chapters. -/
def countType (T : String) (chs : List Chapter) : Nat := cntL T (allThemes chs)

/-- Total number of themes across all chapters. -/
def totalThemes (chs : List Chapter) : Nat := (allThemes chs).length

/-! ### Outline parser (source lines 604-617) -/

/-- Model of `/^\d+\.\s/.test(line)`: one or more digits, a dot, then a whitespace
character, at the start of the line. -/
def isHeadingLine (line : String) : Bool :=
  let l := line.data
  let ds := l.takeWhile Char.isDigit
  !ds.isEmpty &&
    (match l.drop ds.length with
     | '.' :: c :: _ => jsSpace c
     | ['.'] => false
     | _ => false)

/-- Model of `line.replace(/^\d+\.\s/, "").trim()` for a heading line. -/
def headingName (line : String) : String :=
  let l := line.data
  let ds := l.takeWhile Char.isDigit
  String.mk (jsTrim (l.drop (ds.length + 2)))

/-- Model of `line.trim().replace(/^[-•–]\s*/, "")`: the bullet strip applied to an
already trimmed line. -/
def stripBullet (l : List Char) : List Char :=
  match l with
  | c :: rest => if c = '-' ∨ c = '•' ∨ c = '–' then rest.dropWhile jsSpace else l
  | [] => []

/-- One step of the `lines.forEach` parsing loop: state is the emitted
chapter list plus the currently open chapter, if any. -/
def parseLineStep (st : List Chapter × Option Chapter) (line : String) :
    List Chapter × Option Chapter :=
  if isHeadingLine line then
    (match st.2 with
     | some c => st.1 ++ [c]
     | none => st.1,
     some { name := headingName line, themes := [] })
  else if (jsTrim line.data).isEmpty then st
  else
    match st.2 with
    | some c =>
        (st.1, some { c with
          themes := c.themes ++ [{ name := String.mk (stripBullet (jsTrim line.data)) }] })
    | none => st

/-- The parsing loop over all lines, including the trailing
`if (current) chapters.push(current)`. -/
def parseChapters (lines : List String) : List Chapter :=
  match lines.foldl parseLineStep ([], none) with
  | (chs, some c) => chs ++ [c]
  | (chs, none) => chs

/-- Model of `String.prototype.split("\n")`: cut at every newline, keeping empty
segments (including a trailing one). -/
def splitLinesAux : List Char → List Char → List String
  | [], acc => [String.mk acc.reverse]
  | c :: rest, acc =>
      if c = '\n' then String.mk acc.reverse :: splitLinesAux rest []
      else splitLinesAux rest (c :: acc)

/-- Model of `text.split("\n")`. -/
def splitLines (text : String) : List String := splitLinesAux text.data []

/-- Full parser: `structure.split("\n")` then the line loop. -/
def parseOutline (text : String) : List Chapter := parseChapters (splitLines text)

/-! ### Cleanup passes (source lines 619-663) -/

/-- A "standalone СРО chapter": name contains `самостоятельн` and every theme
name contains `самостоятельн` or `сро` (both checks on lower-cased text). -/
def isStandaloneSro (ch : Chapter) : Bool :=
  includesLower "самостоятельн" ch.name &&
    ch.themes.all (fun t =>
      includesLower "самостоятельн" t.name || includesLower "сро" t.name)

/-- Removal of standalone СРО chapters.  The source collects the matching
indexes (computed on the original list) and then splices them out in
descending order; the net effect on the list is exactly this filter. -/
def removeStandaloneSro (chs : List Chapter) : List Chapter :=
  chs.filter (fun ch => !isStandaloneSro ch)

/-- Model of `/\d+\s*\(сро\)$/` applied to the lower-cased theme name: the name ends
with at least one digit, optional whitespace, then `(сро)`. -/
def endsWithNumSro (l : List Char) : Bool :=
  let rev := l.reverse
  isPrefixOfB [')', 'о', 'р', 'с', '('] rev &&
    (match (rev.drop 5).dropWhile jsSpace with
     | c :: _ => c.isDigit
     | [] => false)

/-- A redundant filler theme: lower-cased name contains
`самостоятельная работа по теме` and either contains `(сро)` or matches
`/\d+\s*\(сро\)$/`. -/
def isRedundantSroTheme (t : Theme) : Bool :=
  includesLower "самостоятельная работа по теме" t.name &&
    (includesLower "(сро)" t.name || endsWithNumSro (jsLower t.name.data))

/-- Per-chapter filter dropping redundant СРО filler themes. -/
def removeRedundantSro (chs : List Chapter) : List Chapter :=
  chs.map (fun ch => { ch with themes := ch.themes.filter (fun t => !isRedundantSroTheme t) })

/-- Both cleanup passes, in source order. -/
def cleanupChapters (chs : List Chapter) : List Chapter :=
  removeRedundantSro (removeStandaloneSro chs)

/-! ### Type normalisation (source lines 668-683 and 1039-1050) -/

/-- Model of `StructureGenerationService.mapWorkTypeLabel` (source lines 1039-1050). -/
def mapWorkTypeLabel (label : String) : Option String :=
  if label = "лекция" then some "лекция"
  else if label = "лабораторная" then some "лабораторная"
  else if label = "лаб" then some "лабораторная"
  else if label = "практика" then some "практика"
  else if label = "практическая" then some "практика"
  else if label = "сро" then some "сро"
  else if label = "консультация" then some "консультация"
  else none

/-- Split a trailing parenthesised group, mirroring the regex
`\(([^)]+)\)$`: returns the part before the matched `(` and the non-empty,
`)`-free group content, or `none` when the regex does not match. -/
def splitTrailingParen (s : List Char) : Option (List Char × List Char) :=
  match s.getLast? with
  | some ')' =>
      let w := s.dropLast
      let window := ((w.reverse).takeWhile (fun c => !(c = ')'))).reverse
      let pre := window.takeWhile (fun c => !(c = '('))
      match window.drop pre.length with
      | _ :: content =>
          if content.isEmpty then none
          else some ((w.take (w.length - window.length)) ++ pre, content)
      | [] => none
  | _ => none

/-- The normalisation of one theme (source lines 670-682): extract the
trailing label, lower-case and trim it, resolve it through
`mapWorkTypeLabel`, defaulting to `сро`. -/
def normalizeTheme (t : Theme) : Theme :=
  match splitTrailingParen t.name.data with
  | some (base, content) =>
      let label := String.mk (jsTrim (jsLower content))
      { t with
        rawName := String.mk (jsTrim base)
        label := some label
        normalizedType := (mapWorkTypeLabel label).getD "сро" }
  | none =>
      { t with
        rawName := String.mk (jsTrim t.name.data)
        label := none
        normalizedType := "сро" }

/-- Normalisation over the whole outline. -/
def normalizeChapters (chs : List Chapter) : List Chapter :=
  chs.map (fun ch => { ch with themes := ch.themes.map normalizeTheme })

/-! ### Workload balancing (source lines 704-777) -/

/-- Conversion of an СРО theme to the target type (source lines 726-727). -/
def convTheme (T : String) (t : Theme) : Theme :=
  { t with normalizedType := T, name := t.rawName ++ " (" ++ T ++ ")" }

/-- The inner conversion scan over one chapter's themes: retype СРО themes
to `T`, in order, while the remaining budget `k` is positive.  Returns the
updated list and the number of conversions performed. -/
def convertList (T : String) (k : Nat) : List Theme → List Theme × Nat
  | [] => ([], 0)
  | t :: ts =>
      if 0 < k ∧ t.normalizedType = "сро" then
        let r := convertList T (k - 1) ts
        (convTheme T t :: r.1, r.2 + 1)
      else
        let r := convertList T k ts
        (t :: r.1, r.2)

/-- The conversion scan over chapters in order, threading the budget. -/
def convertChapters (T : String) (k : Nat) : List Chapter → List Chapter × Nat
  | [] => ([], 0)
  | ch :: chs =>
      let r1 := convertList T k ch.themes
      let r2 := convertChapters T (k - r1.2) chs
      ({ ch with themes := r1.1 } :: r2.1, r1.2 + r2.2)

/-- The synthesised placeholder theme number `i` (0-based loop counter,
1-based display number), source lines 740-744. -/
def addTheme (T : String) (i : Nat) : Theme :=
  { name := "Дополнительная тема " ++ toString (i + 1) ++ " (" ++ T ++ ")",
    rawName := "Дополнительная тема " ++ toString (i + 1),
    normalizedType := T }

/-- Append a theme to the chapter at position `j` (no-op when out of range,
which the source never hits because `j = i % chapters.length`). -/
def appendThemeAt : List Chapter → Nat → Theme → List Chapter
  | [], _, _ => []
  | ch :: chs, 0, t => { ch with themes := ch.themes ++ [t] } :: chs
  | ch :: chs, j + 1, t => ch :: appendThemeAt chs j t

/-- The synthesis loop `for (let i = 0; i < remaining; i++)` starting at
loop counter `i` with `r` iterations left: theme `i` is appended to chapter
`i % chapters.length`. -/
def synthFrom (T : String) : Nat → Nat → List Chapter → List Chapter
  | _, 0, chs => chs
  | i, r + 1, chs => synthFrom T (i + 1) r (appendThemeAt chs (i % chs.length) (addTheme T i))

/-- The `diff > 0` branch (source lines 715-749): convert СРО themes, then,
if still short and at least one chapter exists, synthesise the rest. -/
def addBranch (T : String) (diff : Nat) (chs : List Chapter) : List Chapter :=
  let r := convertChapters T diff chs
  if r.2 < diff then
    if 0 < r.1.length then synthFrom T 0 (diff - r.2) r.1 else r.1
  else r.1

/-- Demotion of a theme back to СРО (source lines 767-768). -/
def demoteTheme (t : Theme) : Theme :=
  { t with normalizedType := "сро", name := t.rawName ++ " (СРО)" }

/-- The inner demotion scan over one chapter's themes, iterating from the
end backward (source lines 759-774): the recursion processes the tail —
that is, the later themes — first, then the head if budget remains. -/
def demoteList (T : String) (k : Nat) : List Theme → List Theme × Nat
  | [] => ([], 0)
  | t :: ts =>
      let r := demoteList T k ts
      if r.2 < k ∧ t.normalizedType = T then (demoteTheme t :: r.1, r.2 + 1)
      else (t :: r.1, r.2)

/-- The demotion scan over chapters in order, threading the budget. -/
def demoteChapters (T : String) (k : Nat) : List Chapter → List Chapter × Nat
  | [] => ([], 0)
  | ch :: chs =>
      let r1 := demoteList T k ch.themes
      let r2 := demoteChapters T (k - r1.2) chs
      ({ ch with themes := r1.1 } :: r2.1, r1.2 + r2.2)

/-- One iteration of the balancing loop for one target type.  `snap` is the
count taken from the `currentCounts` snapshot computed before the loop;
`target` is the per-type target; the `diff = target - snap` sign selects the
branch (`targetCount === 0` is skipped with `continue`). -/
def balanceStep (snap target : Nat) (T : String) (chs : List Chapter) : List Chapter :=
  if target = 0 then chs
  else if snap < target then addBranch T (target - snap) chs
  else if target < snap then (demoteChapters T (snap - target) chs).1
  else chs

/-- The full balancing loop over the three entries of `targetCounts`, in
object-literal insertion order, with counts snapshotted up front. -/
def balanceAll (tLec tLab tPr : Nat) (chs : List Chapter) : List Chapter :=
  let sLec := countType "лекция" chs
  let sLab := countType "лабораторная" chs
  let sPr := countType "практика" chs
  balanceStep sPr tPr "практика"
    (balanceStep sLab tLab "лабораторная"
      (balanceStep sLec tLec "лекция" chs))

/-! ### Evenness filler pass (source lines 779-794) -/

/-- The synthetic filler appended by the evenness pass. -/
def fillerTheme : Theme :=
  { name := "Дополнительная тема для выравнивания (СРО)",
    rawName := "Дополнительная тема для выравнивания",
    normalizedType := "сро" }

/-- The evenness pass: a filler СРО theme is appended to every chapter whose
lecture + lab theme count is odd. -/
def evenPass (chs : List Chapter) : List Chapter :=
  chs.map (fun ch =>
    if (cntL "лекция" ch.themes + cntL "лабораторная" ch.themes) % 2 = 1
    then { ch with themes := ch.themes ++ [fillerTheme] } else ch)

/-- The whole reconciliation over an already-normalised outline: the
balancing loop followed by the evenness pass. -/
def reconcile (tLec tLab tPr : Nat) (chs : List Chapter) : List Chapter :=
  evenPass (balanceAll tLec tLab tPr chs)

/-! ### Final counts and match flags (source lines 798-834) -/

/-- The report-key mapping used when recomputing `finalCounts`
(source lines 803-809); unknown types fall back to `СРО`. -/
def reportType (t : String) : String :=
  if t = "лекция" then "Лекция"
  else if t = "лабораторная" then "Лабораторная работа"
  else if t = "практика" then "Практика"
  else if t = "сро" then "СРО"
  else "СРО"

/-- Count of themes whose report key is `R` in a theme list. -/
def cntReport (R : String) : List Theme → Nat
  | [] => 0
  | t :: ts => (if reportType t.normalizedType = R then 1 else 0) + cntReport R ts

/-- Model of `finalCounts[R] || 0`. -/
def finalCount (R : String) (chs : List Chapter) : Nat := cntReport R (allThemes chs)

/-- Model of `lecturesMatch` (source line 829): no zero-target exemption. -/
def lecturesMatch (tLec : Nat) (chs : List Chapter) : Bool :=
  finalCount "Лекция" chs == tLec

/-- Model of `labsMatch` (source line 830): no zero-target exemption. -/
def labsMatch (tLab : Nat) (chs : List Chapter) : Bool :=
  finalCount "Лабораторная работа" chs == tLab

/-- Model of `practicesMatch` (source lines 831-832): a zero practice target always
matches. -/
def practicesMatch (tPr : Nat) (chs : List Chapter) : Bool :=
  tPr == 0 || finalCount "Практика" chs == tPr

/-- Model of `balancingSuccess` (source line 834). -/
def balancingSuccess (tLec tLab tPr : Nat) (chs : List Chapter) : Bool :=
  lecturesMatch tLec chs && labsMatch tLab chs && practicesMatch tPr chs

/-! ### Hour projection (source lines 946-992 and 1002-1011) -/

/-- A work type row from the discipline info endpoint. -/
structure WorkType where
  name : String
  hours : Nat
  program_work_type_id : Nat
  deriving DecidableEq, Repr

/-- The payload's СРО test (source lines 1003-1005). -/
def isSroPayloadName (name : String) : Bool :=
  includesLower "сро" name || includesLower "самостоятельн" name

/-- Hours submitted for one work-type entry of a chapter payload
(source line 1009): СРО keeps its count as hours, others are doubled. -/
def payloadHours (w : WorkType) (count : Nat) : Nat :=
  if isSroPayloadName w.name then count else count * 2

/-- The СРО hour share of chapter `index` out of `numChapters`
(source lines 969-981). -/
def sroHoursForChapter (targetSroHours numChapters index : Nat) : Nat :=
  if targetSroHours < numChapters then (if index < targetSroHours then 1 else 0)
  else
    targetSroHours / numChapters +
      (if index = numChapters - 1 then targetSroHours % numChapters else 0)

/-- The complete text-to-outline core: parse, clean up, normalise,
reconcile. -/
def pipeline (tLec tLab tPr : Nat) (text : String) : List Chapter :=
  reconcile tLec tLab tPr (normalizeChapters (cleanupChapters (parseOutline text)))

/-- The loop-counter values `i, i+1, ..., i+r-1` traversed by the synthesis
loop. -/
def idxRange (i : Nat) : Nat → List Nat
  | 0 => []
  | r + 1 => i :: idxRange (i + 1) r

/-! ### Concrete inputs used by counterexamples and witnesses -/

/-- A normalised lecture theme. -/
def lecTheme : Theme :=
  { name := "Т (лекция)", rawName := "Т", label := some "лекция", normalizedType := "лекция" }

/-- A normalised lab theme. -/
def labTheme : Theme :=
  { name := "Л (лабораторная)", rawName := "Л", label := some "лабораторная",
    normalizedType := "лабораторная" }

/-- A normalised unlabeled (СРО) theme. -/
def sroTheme : Theme :=
  { name := "С", rawName := "С", label := none, normalizedType := "сро" }

/-- One chapter holding a single lecture theme: its lecture + lab count is
odd. -/
def oneLecOutline : List Chapter := [{ name := "Раздел", themes := [lecTheme] }]

/-- One chapter holding one lecture and one lab theme: lecture + lab count
even, counts `(1, 1, 0)`. -/
def evenOutline : List Chapter := [{ name := "Раздел", themes := [lecTheme, labTheme] }]

/-- Two chapters: one lecture plus one СРО theme, then one lab theme. -/
def deficitOutline : List Chapter :=
  [{ name := "А", themes := [lecTheme, sroTheme] },
   { name := "Б", themes := [labTheme] }]

/-- An empty chapter titled with independent-study terminology, a normal
chapter, and a surviving chapter whose title also carries the terminology
but whose theme does not. -/
def cleanupOutline : List Chapter :=
  [{ name := "Самостоятельная работа", themes := [] },
   { name := "Основы", themes := [{ name := "Тема 1 (лекция)" }] },
   { name := "Самостоятельная подготовка", themes := [{ name := "Обычная тема" }] }]

/-! ### Counting lemmas over theme lists -/

theorem cntL_nil (U : String) : cntL U [] = 0 := rfl

theorem cntL_cons (U : String) (t : Theme) (ts : List Theme) :
    cntL U (t :: ts) = (if t.normalizedType = U then 1 else 0) + cntL U ts := rfl

theorem cntL_append (U : String) (l1 l2 : List Theme) :
    cntL U (l1 ++ l2) = cntL U l1 + cntL U l2 := by
  induction l1 with
  | nil => simp [cntL]
  | cons t ts ih => simp [cntL, ih]; omega

theorem cntL_le_length (U : String) (l : List Theme) : cntL U l ≤ l.length := by
  induction l with
  | nil => simp [cntL]
  | cons t ts ih =>
      simp only [cntL, List.length_cons]
      split <;> omega

/-! ### Lemmas about the conversion scan -/

theorem convertList_length (T : String) (k : Nat) (l : List Theme) :
    (convertList T k l).1.length = l.length := by
  induction l generalizing k with
  | nil => simp [convertList]
  | cons t ts ih =>
      simp only [convertList]
      split <;> simp [ih]

theorem convertList_snd (T : String) (k : Nat) (l : List Theme) :
    (convertList T k l).2 = min k (cntL "сро" l) := by
  induction l generalizing k with
  | nil => simp [convertList, cntL]
  | cons t ts ih =>
      by_cases h : 0 < k ∧ t.normalizedType = "сро"
      · simp only [convertList, if_pos h, cntL, if_pos h.2]
        have := ih (k - 1)
        omega
      · simp only [convertList, if_neg h, cntL]
        by_cases ht : t.normalizedType = "сро"
        · have hk : ¬ 0 < k := fun hk => h ⟨hk, ht⟩
          have := ih k
          simp only [if_pos ht]
          omega
        · simp only [if_neg ht]
          have := ih k
          omega

theorem convTheme_type (T : String) (t : Theme) : (convTheme T t).normalizedType = T := rfl

theorem demoteTheme_type (t : Theme) : (demoteTheme t).normalizedType = "сро" := rfl

theorem convertList_cnt_self (T : String) (hT : T ≠ "сро") (k : Nat) (l : List Theme) :
    cntL T (convertList T k l).1 = cntL T l + min k (cntL "сро" l) := by
  induction l generalizing k with
  | nil => simp [convertList, cntL]
  | cons t ts ih =>
      by_cases h : 0 < k ∧ t.normalizedType = "сро"
      · have hne : t.normalizedType ≠ T := by
          rw [h.2]; exact fun hc => hT hc.symm
        simp only [convertList, if_pos h, cntL, convTheme_type, eq_self_iff_true, if_true,
          if_neg hne, if_pos h.2]
        have := ih (k - 1)
        omega
      · simp only [convertList, if_neg h, cntL]
        by_cases ht : t.normalizedType = "сро"
        · have hk : ¬ 0 < k := fun hk => h ⟨hk, ht⟩
          have hne : t.normalizedType ≠ T := by
            rw [ht]; exact fun hc => hT hc.symm
          simp only [if_pos ht, if_neg hne]
          have := ih k
          omega
        · simp only [if_neg ht]
          have := ih k
          omega

theorem convertList_cnt_sro (T : String) (hT : T ≠ "сро") (k : Nat) (l : List Theme) :
    cntL "сро" (convertList T k l).1 = cntL "сро" l - min k (cntL "сро" l) := by
  induction l generalizing k with
  | nil => simp [convertList, cntL]
  | cons t ts ih =>
      by_cases h : 0 < k ∧ t.normalizedType = "сро"
      · simp only [convertList, if_pos h, cntL, convTheme_type, if_neg hT, if_pos h.2]
        have h1 := ih (k - 1)
        have h2 := cntL_le_length "сро" ts
        omega
      · simp only [convertList, if_neg h, cntL]
        by_cases ht : t.normalizedType = "сро"
        · have hk : ¬ 0 < k := fun hk => h ⟨hk, ht⟩
          simp only [if_pos ht]
          have := ih k
          omega
        · simp only [if_neg ht]
          have := ih k
          omega

theorem convertList_cnt_other (T U : String) (h1 : U ≠ T) (h2 : U ≠ "сро")
    (k : Nat) (l : List Theme) :
    cntL U (convertList T k l).1 = cntL U l := by
  induction l generalizing k with
  | nil => simp [convertList]
  | cons t ts ih =>
      by_cases h : 0 < k ∧ t.normalizedType = "сро"
      · have ha : (convTheme T t).normalizedType ≠ U := by
          rw [convTheme_type]; exact fun hc => h1 hc.symm
        have hb : t.normalizedType ≠ U := by
          rw [h.2]; exact fun hc => h2 hc.symm
        simp only [convertList, if_pos h, cntL, if_neg ha, if_neg hb, Nat.zero_add]
        exact ih (k - 1)
      · simp only [convertList, if_neg h, cntL]
        rw [ih k]

/-- Pointwise characterisation of the conversion scan on a flat theme list:
position `m` is retyped exactly when it holds an СРО theme and fewer than
`k` СРО themes precede it. -/
theorem convertList_getD (T : String) (k : Nat) (l : List Theme) (m : Nat)
    (hm : m < l.length) :
    (convertList T k l).1.getD m defaultTheme =
      (if (l.getD m defaultTheme).normalizedType = "сро" ∧ cntL "сро" (l.take m) < k
       then convTheme T (l.getD m defaultTheme)
       else l.getD m defaultTheme) := by
  induction l generalizing k m with
  | nil => simp at hm
  | cons t ts ih =>
      match m with
      | 0 =>
          by_cases h : 0 < k ∧ t.normalizedType = "сро"
          · simp only [convertList, if_pos h, List.getD_cons_zero, List.take_zero, cntL_nil]
            rw [if_pos ⟨h.2, h.1⟩]
          · simp only [convertList, if_neg h, List.getD_cons_zero, List.take_zero, cntL_nil]
            rw [if_neg (fun hx => h ⟨hx.2, hx.1⟩)]
      | m + 1 =>
          have hm' : m < ts.length := by simpa using hm
          by_cases h : 0 < k ∧ t.normalizedType = "сро"
          · obtain ⟨hk, ht⟩ := h
            simp only [convertList, if_pos (And.intro hk ht), List.getD_cons_succ,
              List.take_succ_cons, cntL_cons, if_pos ht]
            rw [ih (k - 1) m hm']
            by_cases hc : (ts.getD m defaultTheme).normalizedType = "сро" ∧
                cntL "сро" (ts.take m) < k - 1
            · obtain ⟨hc1, hc2⟩ := hc
              rw [if_pos ⟨hc1, hc2⟩, if_pos ⟨hc1, by omega⟩]
            · rw [if_neg hc, if_neg ?_]
              intro hx
              obtain ⟨hx1, hx2⟩ := hx
              exact hc ⟨hx1, by omega⟩
          · simp only [convertList, if_neg h, List.getD_cons_succ, List.take_succ_cons,
              cntL_cons]
            by_cases ht : t.normalizedType = "сро"
            · have hk0 : k = 0 := by
                by_contra hk
                exact h ⟨Nat.pos_of_ne_zero hk, ht⟩
              subst hk0
              rw [ih 0 m hm']
              simp
            · simp only [if_neg ht, Nat.zero_add]
              exact ih k m hm'

/-- The conversion scan splits over list append, threading the budget. -/
theorem convertList_append (T : String) (k : Nat) (l1 l2 : List Theme) :
    (convertList T k (l1 ++ l2)).1 =
      (convertList T k l1).1 ++ (convertList T (k - (convertList T k l1).2) l2).1 ∧
    (convertList T k (l1 ++ l2)).2 =
      (convertList T k l1).2 + (convertList T (k - (convertList T k l1).2) l2).2 := by
  induction l1 generalizing k with
  | nil => simp [convertList]
  | cons t ts ih =>
      by_cases h : 0 < k ∧ t.normalizedType = "сро"
      · obtain ⟨ihf, ihs⟩ := ih (k - 1)
        simp only [List.cons_append, convertList, if_pos h, List.append_eq]
        have hbud : k - 1 - (convertList T (k - 1) ts).2 =
            k - ((convertList T (k - 1) ts).2 + 1) := by omega
        constructor
        · rw [ihf, hbud]
        · rw [ihs, hbud]
          omega
      · obtain ⟨ihf, ihs⟩ := ih k
        simp only [List.cons_append, convertList, if_neg h, List.append_eq]
        exact ⟨by rw [ihf], by rw [ihs]⟩

/-! ### Lemmas about the demotion scan -/

theorem demoteList_length (T : String) (k : Nat) (l : List Theme) :
    (demoteList T k l).1.length = l.length := by
  induction l generalizing k with
  | nil => simp [demoteList]
  | cons t ts ih =>
      simp only [demoteList]
      split <;> simp [ih]

theorem demoteList_snd (T : String) (k : Nat) (l : List Theme) :
    (demoteList T k l).2 = min k (cntL T l) := by
  induction l generalizing k with
  | nil => simp [demoteList, cntL]
  | cons t ts ih =>
      simp only [demoteList, cntL_cons, ih k]
      by_cases ht : t.normalizedType = T
      · simp only [if_pos ht]
        by_cases hk : min k (cntL T ts) < k
        · rw [if_pos ⟨hk, ht⟩]
          omega
        · rw [if_neg (fun hx => hk hx.1)]
          omega
      · rw [if_neg (fun hx => ht hx.2), if_neg ht]
        omega

theorem demoteList_cnt_self (T : String) (hT : T ≠ "сро") (k : Nat) (l : List Theme) :
    cntL T (demoteList T k l).1 = cntL T l - min k (cntL T l) := by
  induction l generalizing k with
  | nil => simp [demoteList, cntL]
  | cons t ts ih =>
      simp only [demoteList, cntL_cons]
      have hsnd := demoteList_snd T k ts
      by_cases hc : (demoteList T k ts).2 < k ∧ t.normalizedType = T
      · have hd : (demoteTheme t).normalizedType ≠ T := by
          rw [demoteTheme_type]; exact fun hx => hT hx.symm
        simp only [if_pos hc, cntL_cons, if_neg hd, if_pos hc.2]
        have := ih k
        omega
      · simp only [if_neg hc, cntL_cons]
        by_cases ht : t.normalizedType = T
        · have hk : ¬ (demoteList T k ts).2 < k := fun hx => hc ⟨hx, ht⟩
          simp only [if_pos ht]
          have := ih k
          have h2 := cntL_le_length T ts
          omega
        · simp only [if_neg ht]
          have := ih k
          omega

theorem demoteList_cnt_sro (T : String) (hT : T ≠ "сро") (k : Nat) (l : List Theme) :
    cntL "сро" (demoteList T k l).1 = cntL "сро" l + min k (cntL T l) := by
  induction l generalizing k with
  | nil => simp [demoteList, cntL]
  | cons t ts ih =>
      simp only [demoteList, cntL_cons]
      have hsnd := demoteList_snd T k ts
      by_cases hc : (demoteList T k ts).2 < k ∧ t.normalizedType = T
      · have ht' : t.normalizedType ≠ "сро" := by
          rw [hc.2]; exact hT
        simp only [if_pos hc, cntL_cons, demoteTheme_type, eq_self_iff_true, if_true,
          if_neg ht', if_pos hc.2]
        have := ih k
        omega
      · simp only [if_neg hc, cntL_cons]
        by_cases ht : t.normalizedType = T
        · have hk : ¬ (demoteList T k ts).2 < k := fun hx => hc ⟨hx, ht⟩
          have ht' : t.normalizedType ≠ "сро" := by
            rw [ht]; exact hT
          simp only [if_neg ht', if_pos ht]
          have := ih k
          omega
        · simp only [if_neg ht]
          have := ih k
          by_cases hs : t.normalizedType = "сро"
          · simp only [if_pos hs]
            omega
          · simp only [if_neg hs]
            omega

theorem demoteList_cnt_other (T U : String) (h1 : U ≠ T) (h2 : U ≠ "сро")
    (k : Nat) (l : List Theme) :
    cntL U (demoteList T k l).1 = cntL U l := by
  induction l generalizing k with
  | nil => simp [demoteList]
  | cons t ts ih =>
      simp only [demoteList]
      by_cases hc : (demoteList T k ts).2 < k ∧ t.normalizedType = T
      · have hd : (demoteTheme t).normalizedType ≠ U := by
          rw [demoteTheme_type]; exact fun hx => h2 hx.symm
        have ht' : t.normalizedType ≠ U := by
          rw [hc.2]; exact fun hx => h1 hx.symm
        simp only [if_pos hc, cntL_cons, if_neg hd, if_neg ht', Nat.zero_add]
        exact ih k
      · simp only [if_neg hc, cntL_cons]
        rw [ih k]

/-- Pointwise characterisation of the demotion scan on one chapter's theme
list: position `m` is demoted exactly when it holds a `T` theme and fewer
than `k` themes of type `T` occur after it (the backward loop visits the
later themes first). -/
theorem demoteList_getD (T : String) (k : Nat) (l : List Theme) (m : Nat)
    (hm : m < l.length) :
    (demoteList T k l).1.getD m defaultTheme =
      (if (l.getD m defaultTheme).normalizedType = T ∧ cntL T (l.drop (m + 1)) < k
       then demoteTheme (l.getD m defaultTheme)
       else l.getD m defaultTheme) := by
  induction l generalizing m with
  | nil => simp at hm
  | cons t ts ih =>
      have hsnd := demoteList_snd T k ts
      match m with
      | 0 =>
          by_cases hc : (demoteList T k ts).2 < k ∧ t.normalizedType = T
          · simp only [demoteList, if_pos hc, List.getD_cons_zero, List.drop_succ_cons,
              List.drop_zero]
            rw [if_pos ⟨hc.2, by omega⟩]
          · simp only [demoteList, if_neg hc, List.getD_cons_zero, List.drop_succ_cons,
              List.drop_zero]
            rw [if_neg ?_]
            intro hx
            obtain ⟨hx1, hx2⟩ := hx
            exact hc ⟨by omega, hx1⟩
      | m + 1 =>
          have hm' : m < ts.length := by simpa using hm
          by_cases hc : (demoteList T k ts).2 < k ∧ t.normalizedType = T
          · simp only [demoteList, if_pos hc, List.getD_cons_succ, List.drop_succ_cons]
            exact ih m hm'
          · simp only [demoteList, if_neg hc, List.getD_cons_succ, List.drop_succ_cons]
            exact ih m hm'

/-! ### Chapter-level counting lemmas -/

theorem countType_nil (U : String) : countType U [] = 0 := rfl

theorem countType_cons (U : String) (ch : Chapter) (chs : List Chapter) :
    countType U (ch :: chs) = cntL U ch.themes + countType U chs := by
  simp [countType, allThemes, cntL_append]

theorem totalThemes_nil : totalThemes [] = 0 := rfl

theorem totalThemes_cons (ch : Chapter) (chs : List Chapter) :
    totalThemes (ch :: chs) = ch.themes.length + totalThemes chs := by
  simp [totalThemes, allThemes]

/-! ### The conversion scan over chapters -/

/-- The nested conversion loop visits themes exactly in flattened
section-then-theme order: flattening its output equals running the flat
scan on the flattened input. -/
theorem convertChapters_fst_flatten (T : String) (k : Nat) (chs : List Chapter) :
    allThemes (convertChapters T k chs).1 = (convertList T k (allThemes chs)).1 := by
  induction chs generalizing k with
  | nil => simp [convertChapters, allThemes, convertList]
  | cons ch chs ih =>
      simp only [convertChapters, allThemes]
      rw [ih, (convertList_append T k ch.themes (allThemes chs)).1]

theorem convertChapters_snd (T : String) (k : Nat) (chs : List Chapter) :
    (convertChapters T k chs).2 = (convertList T k (allThemes chs)).2 := by
  induction chs generalizing k with
  | nil => simp [convertChapters, allThemes, convertList]
  | cons ch chs ih =>
      simp only [convertChapters, allThemes]
      rw [ih, (convertList_append T k ch.themes (allThemes chs)).2]

theorem convertChapters_snd_min (T : String) (k : Nat) (chs : List Chapter) :
    (convertChapters T k chs).2 = min k (countType "сро" chs) := by
  rw [convertChapters_snd, convertList_snd]
  rfl

theorem convertChapters_length (T : String) (k : Nat) (chs : List Chapter) :
    (convertChapters T k chs).1.length = chs.length := by
  induction chs generalizing k with
  | nil => simp [convertChapters]
  | cons ch chs ih => simp [convertChapters, ih]

theorem convertChapters_cnt_self (T : String) (hT : T ≠ "сро") (k : Nat)
    (chs : List Chapter) :
    countType T (convertChapters T k chs).1 = countType T chs + min k (countType "сро" chs) := by
  unfold countType
  rw [convertChapters_fst_flatten, convertList_cnt_self T hT]

theorem convertChapters_cnt_sro (T : String) (hT : T ≠ "сро") (k : Nat)
    (chs : List Chapter) :
    countType "сро" (convertChapters T k chs).1 =
      countType "сро" chs - min k (countType "сро" chs) := by
  unfold countType
  rw [convertChapters_fst_flatten, convertList_cnt_sro T hT]

theorem convertChapters_cnt_other (T U : String) (h1 : U ≠ T) (h2 : U ≠ "сро")
    (k : Nat) (chs : List Chapter) :
    countType U (convertChapters T k chs).1 = countType U chs := by
  unfold countType
  rw [convertChapters_fst_flatten, convertList_cnt_other T U h1 h2]

theorem convertChapters_total (T : String) (k : Nat) (chs : List Chapter) :
    totalThemes (convertChapters T k chs).1 = totalThemes chs := by
  unfold totalThemes
  rw [convertChapters_fst_flatten, convertList_length]

/-! ### Appending one synthesised theme -/

theorem appendThemeAt_length (chs : List Chapter) (j : Nat) (t : Theme) :
    (appendThemeAt chs j t).length = chs.length := by
  induction chs generalizing j with
  | nil => simp [appendThemeAt]
  | cons ch chs ih =>
      match j with
      | 0 => simp [appendThemeAt]
      | j + 1 => simp [appendThemeAt, ih]

theorem appendThemeAt_countType (U : String) (chs : List Chapter) (j : Nat) (t : Theme)
    (hj : j < chs.length) :
    countType U (appendThemeAt chs j t) =
      countType U chs + (if t.normalizedType = U then 1 else 0) := by
  induction chs generalizing j with
  | nil => simp at hj
  | cons ch chs ih =>
      match j with
      | 0 =>
          simp only [appendThemeAt, countType_cons, cntL_append, cntL_cons, cntL_nil]
          omega
      | j + 1 =>
          have hj' : j < chs.length := by simpa using hj
          simp only [appendThemeAt, countType_cons, ih j hj']
          omega

theorem appendThemeAt_total (chs : List Chapter) (j : Nat) (t : Theme)
    (hj : j < chs.length) :
    totalThemes (appendThemeAt chs j t) = totalThemes chs + 1 := by
  induction chs generalizing j with
  | nil => simp at hj
  | cons ch chs ih =>
      match j with
      | 0 => simp [appendThemeAt, totalThemes_cons]; omega
      | j + 1 =>
          have hj' : j < chs.length := by simpa using hj
          simp only [appendThemeAt, totalThemes_cons, ih j hj']
          omega

theorem appendThemeAt_getD (chs : List Chapter) (j m : Nat) (t : Theme)
    (hm : m < chs.length) :
    (appendThemeAt chs j t).getD m defaultChapter =
      (if m = j
       then { chs.getD m defaultChapter with
                themes := (chs.getD m defaultChapter).themes ++ [t] }
       else chs.getD m defaultChapter) := by
  induction chs generalizing j m with
  | nil => simp at hm
  | cons ch chs ih =>
      match j, m with
      | 0, 0 => simp [appendThemeAt]
      | 0, m + 1 => simp [appendThemeAt]
      | j + 1, 0 => simp [appendThemeAt]
      | j + 1, m + 1 =>
          have hm' : m < chs.length := by simpa using hm
          simp only [appendThemeAt, List.getD_cons_succ]
          rw [ih j m hm']
          by_cases h : m = j
          · rw [if_pos h, if_pos (by omega)]
          · rw [if_neg h, if_neg (by omega)]

/-! ### The synthesis loop -/

theorem addTheme_type (T : String) (i : Nat) : (addTheme T i).normalizedType = T := rfl

theorem synthFrom_length (T : String) (r i : Nat) (chs : List Chapter) :
    (synthFrom T i r chs).length = chs.length := by
  induction r generalizing i chs with
  | zero => simp [synthFrom]
  | succ r ih =>
      simp only [synthFrom]
      rw [ih, appendThemeAt_length]

theorem synthFrom_cnt_self (T : String) (r i : Nat) (chs : List Chapter)
    (h : chs ≠ []) :
    countType T (synthFrom T i r chs) = countType T chs + r := by
  induction r generalizing i chs with
  | zero => simp [synthFrom]
  | succ r ih =>
      have hlen : 0 < chs.length := List.length_pos.mpr h
      have hmod : i % chs.length < chs.length := Nat.mod_lt i hlen
      have hne : appendThemeAt chs (i % chs.length) (addTheme T i) ≠ [] := by
        intro hx
        have := appendThemeAt_length chs (i % chs.length) (addTheme T i)
        rw [hx] at this
        simp at this
        omega
      simp only [synthFrom]
      rw [ih (i + 1) _ hne,
        appendThemeAt_countType T chs (i % chs.length) (addTheme T i) hmod]
      simp [addTheme_type]
      omega

theorem synthFrom_cnt_other (T U : String) (hU : U ≠ T) (r i : Nat)
    (chs : List Chapter) :
    countType U (synthFrom T i r chs) = countType U chs := by
  induction r generalizing i chs with
  | zero => simp [synthFrom]
  | succ r ih =>
      simp only [synthFrom]
      rw [ih (i + 1)]
      by_cases h : chs = []
      · subst h
        simp [appendThemeAt]
      · have hlen : 0 < chs.length := List.length_pos.mpr h
        have hmod : i % chs.length < chs.length := Nat.mod_lt i hlen
        rw [appendThemeAt_countType U chs (i % chs.length) (addTheme T i) hmod]
        have : (addTheme T i).normalizedType ≠ U := by
          rw [addTheme_type]
          exact fun hx => hU hx.symm
        rw [if_neg this]
        omega

theorem synthFrom_total (T : String) (r i : Nat) (chs : List Chapter)
    (h : chs ≠ []) :
    totalThemes (synthFrom T i r chs) = totalThemes chs + r := by
  induction r generalizing i chs with
  | zero => simp [synthFrom]
  | succ r ih =>
      have hlen : 0 < chs.length := List.length_pos.mpr h
      have hmod : i % chs.length < chs.length := Nat.mod_lt i hlen
      have hne : appendThemeAt chs (i % chs.length) (addTheme T i) ≠ [] := by
        intro hx
        have := appendThemeAt_length chs (i % chs.length) (addTheme T i)
        rw [hx] at this
        simp at this
        omega
      simp only [synthFrom]
      rw [ih (i + 1) _ hne, appendThemeAt_total chs (i % chs.length) (addTheme T i) hmod]
      omega

/-- Round-robin characterisation of the synthesis loop: chapter `j` receives
exactly the placeholders whose loop counter is congruent to `j` modulo the
chapter count, appended in order. -/
theorem synthFrom_getD (T : String) (r i : Nat) (chs : List Chapter) (j : Nat)
    (hj : j < chs.length) :
    ((synthFrom T i r chs).getD j defaultChapter).themes =
      (chs.getD j defaultChapter).themes ++
        ((idxRange i r).filter (fun m => m % chs.length = j)).map (addTheme T) := by
  induction r generalizing i chs with
  | zero => simp [synthFrom, idxRange]
  | succ r ih =>
      have hlen : 0 < chs.length := by omega
      have hmod : i % chs.length < chs.length := Nat.mod_lt i hlen
      have hlen2 : (appendThemeAt chs (i % chs.length) (addTheme T i)).length = chs.length :=
        appendThemeAt_length chs (i % chs.length) (addTheme T i)
      simp only [synthFrom, idxRange, List.filter_cons]
      rw [ih (i + 1) _ (by omega), hlen2,
        appendThemeAt_getD chs (i % chs.length) j (addTheme T i) hj]
      by_cases h : i % chs.length = j
      · rw [if_pos h.symm]
        simp [h]
      · rw [if_neg (fun hx => h hx.symm)]
        simp only [decide_eq_true_eq]
        rw [if_neg h]

/-! ### The deficit branch -/

theorem addBranch_nil (T : String) (diff : Nat) : addBranch T diff [] = [] := by
  simp [addBranch, convertChapters, convertList, synthFrom]

theorem addBranch_eq (T : String) (diff : Nat) (chs : List Chapter) :
    addBranch T diff chs =
      if (convertChapters T diff chs).2 < diff then
        (if 0 < (convertChapters T diff chs).1.length
         then synthFrom T 0 (diff - (convertChapters T diff chs).2) (convertChapters T diff chs).1
         else (convertChapters T diff chs).1)
      else (convertChapters T diff chs).1 := rfl

theorem addBranch_length (T : String) (diff : Nat) (chs : List Chapter) :
    (addBranch T diff chs).length = chs.length := by
  rw [addBranch_eq]
  split
  · split
    · rw [synthFrom_length, convertChapters_length]
    · rw [convertChapters_length]
  · rw [convertChapters_length]

theorem addBranch_cnt_self (T : String) (hT : T ≠ "сро") (diff : Nat)
    (chs : List Chapter) (h : chs ≠ []) :
    countType T (addBranch T diff chs) = countType T chs + diff := by
  rw [addBranch_eq]
  have hmin := convertChapters_snd_min T diff chs
  have hself := convertChapters_cnt_self T hT diff chs
  have hne : (convertChapters T diff chs).1 ≠ [] := by
    intro hx
    have := convertChapters_length T diff chs
    rw [hx] at this
    have : chs = [] := List.length_eq_zero.mp this.symm
    exact h this
  split
  · split
    · rw [synthFrom_cnt_self T _ 0 _ hne, hself]
      omega
    · rename_i h1 h2
      exfalso
      have := List.length_pos.mpr hne
      omega
  · rename_i h1
    rw [hself]
    omega

theorem addBranch_cnt_other (T U : String) (h1 : U ≠ T) (h2 : U ≠ "сро")
    (diff : Nat) (chs : List Chapter) :
    countType U (addBranch T diff chs) = countType U chs := by
  rw [addBranch_eq]
  have hother := convertChapters_cnt_other T U h1 h2 diff chs
  split
  · split
    · rw [synthFrom_cnt_other T U h1, hother]
    · exact hother
  · exact hother

theorem addBranch_total (T : String) (diff : Nat) (chs : List Chapter)
    (h : chs ≠ []) :
    totalThemes (addBranch T diff chs) =
      totalThemes chs + (diff - min diff (countType "сро" chs)) := by
  rw [addBranch_eq]
  have hmin := convertChapters_snd_min T diff chs
  have htot := convertChapters_total T diff chs
  have hne : (convertChapters T diff chs).1 ≠ [] := by
    intro hx
    have := convertChapters_length T diff chs
    rw [hx] at this
    have : chs = [] := List.length_eq_zero.mp this.symm
    exact h this
  split
  · split
    · rw [synthFrom_total T _ 0 _ hne, htot, hmin]
    · rename_i hx1 hx2
      exfalso
      have := List.length_pos.mpr hne
      omega
  · rename_i hx1
    rw [htot]
    omega

/-! ### The demotion scan over chapters -/

theorem demoteChapters_snd (T : String) (k : Nat) (chs : List Chapter) :
    (demoteChapters T k chs).2 = min k (countType T chs) := by
  induction chs generalizing k with
  | nil => simp [demoteChapters, countType_nil]
  | cons ch chs ih =>
      simp only [demoteChapters, countType_cons]
      rw [demoteList_snd, ih (k - min k (cntL T ch.themes))]
      have h1 := cntL_le_length T ch.themes
      omega

theorem demoteChapters_length (T : String) (k : Nat) (chs : List Chapter) :
    (demoteChapters T k chs).1.length = chs.length := by
  induction chs generalizing k with
  | nil => simp [demoteChapters]
  | cons ch chs ih => simp [demoteChapters, ih]

theorem demoteChapters_theme_lengths (T : String) (k : Nat) (chs : List Chapter) :
    (demoteChapters T k chs).1.map (fun ch => ch.themes.length) =
      chs.map (fun ch => ch.themes.length) := by
  induction chs generalizing k with
  | nil => simp [demoteChapters]
  | cons ch chs ih =>
      simp only [demoteChapters, List.map_cons]
      rw [demoteList_length, ih]

theorem demoteChapters_cnt_self (T : String) (hT : T ≠ "сро") (k : Nat)
    (chs : List Chapter) :
    countType T (demoteChapters T k chs).1 = countType T chs - min k (countType T chs) := by
  induction chs generalizing k with
  | nil => simp [demoteChapters, countType_nil]
  | cons ch chs ih =>
      simp only [demoteChapters, countType_cons]
      rw [demoteList_cnt_self T hT, demoteList_snd, ih (k - min k (cntL T ch.themes))]
      omega

theorem demoteChapters_cnt_sro (T : String) (hT : T ≠ "сро") (k : Nat)
    (chs : List Chapter) :
    countType "сро" (demoteChapters T k chs).1 =
      countType "сро" chs + min k (countType T chs) := by
  induction chs generalizing k with
  | nil => simp [demoteChapters, countType_nil]
  | cons ch chs ih =>
      simp only [demoteChapters, countType_cons]
      rw [demoteList_cnt_sro T hT, demoteList_snd, ih (k - min k (cntL T ch.themes))]
      omega

theorem demoteChapters_cnt_other (T U : String) (h1 : U ≠ T) (h2 : U ≠ "сро")
    (k : Nat) (chs : List Chapter) :
    countType U (demoteChapters T k chs).1 = countType U chs := by
  induction chs generalizing k with
  | nil => simp [demoteChapters]
  | cons ch chs ih =>
      simp only [demoteChapters, countType_cons]
      rw [demoteList_cnt_other T U h1 h2, ih (k - (demoteList T k ch.themes).2)]

theorem demoteChapters_total (T : String) (k : Nat) (chs : List Chapter) :
    totalThemes (demoteChapters T k chs).1 = totalThemes chs := by
  induction chs generalizing k with
  | nil => simp [demoteChapters]
  | cons ch chs ih =>
      simp only [demoteChapters, totalThemes_cons]
      rw [demoteList_length, ih (k - (demoteList T k ch.themes).2)]

/-- Chapter-wise characterisation of the demotion scan: chapter `j` is
demoted with whatever budget is left after the chapters before it. -/
theorem demoteChapters_getD (T : String) (k : Nat) (chs : List Chapter) (j : Nat)
    (hj : j < chs.length) :
    (demoteChapters T k chs).1.getD j defaultChapter =
      { chs.getD j defaultChapter with
          themes := (demoteList T (k - min k (countType T (chs.take j)))
            (chs.getD j defaultChapter).themes).1 } := by
  induction chs generalizing k j with
  | nil => simp at hj
  | cons ch chs ih =>
      match j with
      | 0 =>
          simp only [demoteChapters, List.getD_cons_zero, List.take_zero, countType_nil]
          have : k - min k 0 = k := by omega
          rw [this]
      | j + 1 =>
          have hj' : j < chs.length := by simpa using hj
          simp only [demoteChapters, List.getD_cons_succ, List.take_succ_cons,
            countType_cons]
          rw [ih (k - (demoteList T k ch.themes).2) j hj', demoteList_snd]
          have harith : k - min k (cntL T ch.themes) -
              min (k - min k (cntL T ch.themes)) (countType T (chs.take j)) =
              k - min k (cntL T ch.themes + countType T (chs.take j)) := by
            omega
          rw [harith]

/-! ### One balancing step -/

theorem balanceStep_cnt_self (T : String) (hT : T ≠ "сро") (target : Nat)
    (chs : List Chapter) (h : chs ≠ []) (htgt : target ≠ 0) :
    countType T (balanceStep (countType T chs) target T chs) = target := by
  unfold balanceStep
  rw [if_neg htgt]
  by_cases h1 : countType T chs < target
  · rw [if_pos h1, addBranch_cnt_self T hT _ _ h]
    omega
  · rw [if_neg h1]
    by_cases h2 : target < countType T chs
    · rw [if_pos h2, demoteChapters_cnt_self T hT]
      omega
    · rw [if_neg h2]
      omega

theorem balanceStep_cnt_other (snap target : Nat) (T U : String) (h1 : U ≠ T)
    (h2 : U ≠ "сро") (chs : List Chapter) :
    countType U (balanceStep snap target T chs) = countType U chs := by
  unfold balanceStep
  split_ifs with hz ha hd
  · rfl
  · exact addBranch_cnt_other T U h1 h2 _ chs
  · exact demoteChapters_cnt_other T U h1 h2 _ chs
  · rfl

theorem balanceStep_length (snap target : Nat) (T : String) (chs : List Chapter) :
    (balanceStep snap target T chs).length = chs.length := by
  unfold balanceStep
  split_ifs with hz ha hd
  · rfl
  · exact addBranch_length T _ chs
  · exact demoteChapters_length T _ chs
  · rfl

theorem balanceStep_total (snap target : Nat) (T : String) (chs : List Chapter) :
    totalThemes chs ≤ totalThemes (balanceStep snap target T chs) := by
  unfold balanceStep
  split_ifs with hz ha hd
  · exact Nat.le_refl _
  · by_cases h : chs = []
    · subst h
      rw [addBranch_nil]
    · rw [addBranch_total T _ _ h]
      omega
  · rw [demoteChapters_total]
  · exact Nat.le_refl _

theorem balanceStep_nil (snap target : Nat) (T : String) :
    balanceStep snap target T [] = [] := by
  unfold balanceStep
  split_ifs with hz ha hd
  · rfl
  · exact addBranch_nil T _
  · simp [demoteChapters]
  · rfl

/-! ### The full balancing loop -/

theorem balanceAll_eq (tLec tLab tPr : Nat) (chs : List Chapter) :
    balanceAll tLec tLab tPr chs =
      balanceStep (countType "практика" chs) tPr "практика"
        (balanceStep (countType "лабораторная" chs) tLab "лабораторная"
          (balanceStep (countType "лекция" chs) tLec "лекция" chs)) := rfl

theorem balanceAll_length (tLec tLab tPr : Nat) (chs : List Chapter) :
    (balanceAll tLec tLab tPr chs).length = chs.length := by
  rw [balanceAll_eq, balanceStep_length, balanceStep_length, balanceStep_length]

theorem balanceAll_nil (tLec tLab tPr : Nat) :
    balanceAll tLec tLab tPr [] = [] := by
  rw [balanceAll_eq, balanceStep_nil, balanceStep_nil, balanceStep_nil]

theorem balanceAll_total (tLec tLab tPr : Nat) (chs : List Chapter) :
    totalThemes chs ≤ totalThemes (balanceAll tLec tLab tPr chs) := by
  rw [balanceAll_eq]
  calc totalThemes chs
      ≤ totalThemes (balanceStep (countType "лекция" chs) tLec "лекция" chs) :=
        balanceStep_total _ _ _ _
    _ ≤ totalThemes (balanceStep (countType "лабораторная" chs) tLab "лабораторная"
          (balanceStep (countType "лекция" chs) tLec "лекция" chs)) :=
        balanceStep_total _ _ _ _
    _ ≤ _ := balanceStep_total _ _ _ _

theorem balanceAll_cnt_lec (tLec tLab tPr : Nat) (chs : List Chapter)
    (h : chs ≠ []) (ht : tLec ≠ 0) :
    countType "лекция" (balanceAll tLec tLab tPr chs) = tLec := by
  rw [balanceAll_eq]
  rw [balanceStep_cnt_other _ _ _ _ (by decide) (by decide)]
  rw [balanceStep_cnt_other _ _ _ _ (by decide) (by decide)]
  exact balanceStep_cnt_self "лекция" (by decide) tLec chs h ht

theorem balanceAll_cnt_lab (tLec tLab tPr : Nat) (chs : List Chapter)
    (h : chs ≠ []) (ht : tLab ≠ 0) :
    countType "лабораторная" (balanceAll tLec tLab tPr chs) = tLab := by
  rw [balanceAll_eq]
  rw [balanceStep_cnt_other _ _ _ _ (by decide) (by decide)]
  have hc1 : countType "лабораторная"
      (balanceStep (countType "лекция" chs) tLec "лекция" chs) =
      countType "лабораторная" chs :=
    balanceStep_cnt_other _ _ _ _ (by decide) (by decide) chs
  have hne : balanceStep (countType "лекция" chs) tLec "лекция" chs ≠ [] := by
    intro hx
    have := balanceStep_length (countType "лекция" chs) tLec "лекция" chs
    rw [hx] at this
    exact h (List.length_eq_zero.mp this.symm)
  rw [← hc1]
  exact balanceStep_cnt_self "лабораторная" (by decide) tLab _ hne ht

theorem balanceAll_cnt_pr (tLec tLab tPr : Nat) (chs : List Chapter)
    (h : chs ≠ []) (ht : tPr ≠ 0) :
    countType "практика" (balanceAll tLec tLab tPr chs) = tPr := by
  rw [balanceAll_eq]
  have hc1 : countType "практика"
      (balanceStep (countType "лекция" chs) tLec "лекция" chs) =
      countType "практика" chs :=
    balanceStep_cnt_other _ _ _ _ (by decide) (by decide) chs
  have hc2 : countType "практика"
      (balanceStep (countType "лабораторная" chs) tLab "лабораторная"
        (balanceStep (countType "лекция" chs) tLec "лекция" chs)) =
      countType "практика" chs := by
    rw [balanceStep_cnt_other _ _ _ _ (by decide) (by decide), hc1]
  have hne : balanceStep (countType "лабораторная" chs) tLab "лабораторная"
      (balanceStep (countType "лекция" chs) tLec "лекция" chs) ≠ [] := by
    intro hx
    have h1 := balanceStep_length (countType "лабораторная" chs) tLab "лабораторная"
      (balanceStep (countType "лекция" chs) tLec "лекция" chs)
    have h2 := balanceStep_length (countType "лекция" chs) tLec "лекция" chs
    rw [hx] at h1
    simp only [List.length_nil] at h1
    exact h (List.length_eq_zero.mp (by omega))
  rw [← hc2]
  exact balanceStep_cnt_self "практика" (by decide) tPr _ hne ht

/-! ### The evenness pass -/

theorem fillerTheme_type : fillerTheme.normalizedType = "сро" := rfl

theorem evenPass_length (chs : List Chapter) : (evenPass chs).length = chs.length := by
  simp [evenPass]

theorem evenPass_nil : evenPass [] = [] := rfl

theorem evenPass_cnt (U : String) (hU : U ≠ "сро") (chs : List Chapter) :
    countType U (evenPass chs) = countType U chs := by
  induction chs with
  | nil => rfl
  | cons ch chs ih =>
      simp only [evenPass, List.map_cons] at ih ⊢
      rw [countType_cons, countType_cons, ih]
      congr 1
      split_ifs with hodd
      · rw [cntL_append]
        simp only [cntL_cons, cntL_nil, fillerTheme_type]
        rw [if_neg (fun hx => hU hx.symm)]
        omega
      · rfl

theorem evenPass_total (chs : List Chapter) :
    totalThemes chs ≤ totalThemes (evenPass chs) := by
  induction chs with
  | nil => simp [evenPass]
  | cons ch chs ih =>
      simp only [evenPass, List.map_cons] at ih ⊢
      rw [totalThemes_cons, totalThemes_cons]
      split_ifs with hodd
      · simp only [List.length_append, List.length_cons, List.length_nil]
        omega
      · omega

/-! ### Report keys and match flags -/

theorem reportType_eq_lecIff (x : String) : reportType x = "Лекция" ↔ x = "лекция" := by
  constructor
  · intro h
    by_contra hx
    unfold reportType at h
    rw [if_neg hx] at h
    split_ifs at h <;> exact absurd h (by decide)
  · intro h
    simp [reportType, h]

theorem reportType_eq_labIff (x : String) :
    reportType x = "Лабораторная работа" ↔ x = "лабораторная" := by
  constructor
  · intro h
    by_contra hx
    unfold reportType at h
    split_ifs at h <;> exact absurd h (by decide)
  · intro h
    simp [reportType, h]

theorem reportType_eq_prIff (x : String) : reportType x = "Практика" ↔ x = "практика" := by
  constructor
  · intro h
    by_contra hx
    unfold reportType at h
    split_ifs at h <;> exact absurd h (by decide)
  · intro h
    simp [reportType, h]

theorem cntReport_eq_cntL (R T : String) (hRT : ∀ x, reportType x = R ↔ x = T)
    (l : List Theme) : cntReport R l = cntL T l := by
  induction l with
  | nil => rfl
  | cons t ts ih =>
      simp only [cntReport, cntL_cons, ih, hRT]

theorem finalCount_lec (chs : List Chapter) :
    finalCount "Лекция" chs = countType "лекция" chs :=
  cntReport_eq_cntL _ _ reportType_eq_lecIff _

theorem finalCount_lab (chs : List Chapter) :
    finalCount "Лабораторная работа" chs = countType "лабораторная" chs :=
  cntReport_eq_cntL _ _ reportType_eq_labIff _

theorem finalCount_pr (chs : List Chapter) :
    finalCount "Практика" chs = countType "практика" chs :=
  cntReport_eq_cntL _ _ reportType_eq_prIff _

/-! ### Reconciliation-level lemmas -/

theorem reconcile_nil (t1 t2 t3 : Nat) : reconcile t1 t2 t3 [] = [] := by
  rw [reconcile, balanceAll_nil, evenPass_nil]

theorem reconcile_cnt_lec (t1 t2 t3 : Nat) (chs : List Chapter) (h : chs ≠ [])
    (ht : t1 ≠ 0) : countType "лекция" (reconcile t1 t2 t3 chs) = t1 := by
  rw [reconcile, evenPass_cnt _ (by decide)]
  exact balanceAll_cnt_lec t1 t2 t3 chs h ht

theorem reconcile_cnt_lab (t1 t2 t3 : Nat) (chs : List Chapter) (h : chs ≠ [])
    (ht : t2 ≠ 0) : countType "лабораторная" (reconcile t1 t2 t3 chs) = t2 := by
  rw [reconcile, evenPass_cnt _ (by decide)]
  exact balanceAll_cnt_lab t1 t2 t3 chs h ht

theorem reconcile_cnt_pr (t1 t2 t3 : Nat) (chs : List Chapter) (h : chs ≠ [])
    (ht : t3 ≠ 0) : countType "практика" (reconcile t1 t2 t3 chs) = t3 := by
  rw [reconcile, evenPass_cnt _ (by decide)]
  exact balanceAll_cnt_pr t1 t2 t3 chs h ht

theorem reconcile_total (t1 t2 t3 : Nat) (chs : List Chapter) :
    totalThemes chs ≤ totalThemes (reconcile t1 t2 t3 chs) := by
  rw [reconcile]
  exact Nat.le_trans (balanceAll_total t1 t2 t3 chs) (evenPass_total _)

/-! ### Claim C1 -/

/-- C1: after the reconciler runs on an outline with at least one Section,
for every work type in \{Lecture, Lab, Practice\} with a nonzero target the
total theme count of that `normalizedType` equals the target exactly; with
zero Sections and some nonzero target, the result is the unchanged empty
outline, the affected match flags are false and `balancingSuccess` is false
(the reconciler is a total function, so it cannot throw). -/
theorem c1_count_invariant (tLec tLab tPr : Nat) (chs : List Chapter) :
    (chs ≠ [] →
      (tLec ≠ 0 → countType "лекция" (reconcile tLec tLab tPr chs) = tLec) ∧
      (tLab ≠ 0 → countType "лабораторная" (reconcile tLec tLab tPr chs) = tLab) ∧
      (tPr ≠ 0 → countType "практика" (reconcile tLec tLab tPr chs) = tPr)) ∧
    (chs = [] →
      reconcile tLec tLab tPr chs = [] ∧
      (tLec ≠ 0 → lecturesMatch tLec (reconcile tLec tLab tPr chs) = false) ∧
      (tLab ≠ 0 → labsMatch tLab (reconcile tLec tLab tPr chs) = false) ∧
      (tPr ≠ 0 → practicesMatch tPr (reconcile tLec tLab tPr chs) = false) ∧
      ((tLec ≠ 0 ∨ tLab ≠ 0 ∨ tPr ≠ 0) →
        balancingSuccess tLec tLab tPr (reconcile tLec tLab tPr chs) = false)) := by
  constructor
  · intro h
    exact ⟨reconcile_cnt_lec tLec tLab tPr chs h,
           reconcile_cnt_lab tLec tLab tPr chs h,
           reconcile_cnt_pr tLec tLab tPr chs h⟩
  · intro h
    subst h
    have hnil : reconcile tLec tLab tPr [] = [] := reconcile_nil tLec tLab tPr
    rw [hnil]
    have hlec : ∀ t : Nat, t ≠ 0 → lecturesMatch t ([] : List Chapter) = false := by
      intro t ht
      unfold lecturesMatch
      rw [finalCount_lec]
      rw [countType_nil]
      exact beq_eq_false_iff_ne.mpr (fun hx => ht hx.symm)
    have hlab : ∀ t : Nat, t ≠ 0 → labsMatch t ([] : List Chapter) = false := by
      intro t ht
      unfold labsMatch
      rw [finalCount_lab, countType_nil]
      exact beq_eq_false_iff_ne.mpr (fun hx => ht hx.symm)
    have hpr : ∀ t : Nat, t ≠ 0 → practicesMatch t ([] : List Chapter) = false := by
      intro t ht
      unfold practicesMatch
      rw [finalCount_pr, countType_nil]
      rw [Bool.or_eq_false_iff]
      exact ⟨beq_eq_false_iff_ne.mpr ht,
             beq_eq_false_iff_ne.mpr (fun hx => ht hx.symm)⟩
    refine ⟨rfl, hlec tLec, hlab tLab, hpr tPr, ?_⟩
    intro hor
    unfold balancingSuccess
    rcases hor with ht | ht | ht
    · rw [hlec tLec ht]
      simp
    · rw [hlab tLab ht]
      simp
    · rw [hpr tPr ht]
      simp

/-- Witness for C1 at concrete inputs: a two-section outline reconciled to
targets `(2, 1, 0)` ends with exactly 2 lecture themes, and the empty
outline with target `(1, 0, 0)` reports failure. -/
theorem c1_count_invariant_witness :
    (deficitOutline ≠ [] ∧ (2 : Nat) ≠ 0 ∧
      countType "лекция" (reconcile 2 1 0 deficitOutline) = 2) ∧
    (((1 : Nat) ≠ 0 ∨ (0 : Nat) ≠ 0 ∨ (0 : Nat) ≠ 0) ∧
      balancingSuccess 1 0 0 (reconcile 1 0 0 []) = false) := by
  constructor
  · refine ⟨by decide, by decide, ?_⟩
    exact ((c1_count_invariant 2 1 0 deficitOutline).1 (by decide)).1 (by decide)
  · refine ⟨Or.inl (by decide), ?_⟩
    exact ((c1_count_invariant 1 0 0 []).2 rfl).2.2.2.2 (Or.inl (by decide))

/-! ### Claim C2 -/

theorem evenPass_map_len (b : List Chapter) :
    (evenPass b).map (fun ch => ch.themes.length) =
      b.map (fun ch =>
        ch.themes.length +
          (if (cntL "лекция" ch.themes + cntL "лабораторная" ch.themes) % 2 = 1
           then 1 else 0)) := by
  induction b with
  | nil => rfl
  | cons ch chs ih =>
      simp only [evenPass, List.map_cons] at ih ⊢
      rw [ih]
      congr 1
      split_ifs with hodd
      · simp
      · simp

theorem evenPass_map_cnt (U : String) (hU : U ≠ "сро") (b : List Chapter) :
    (evenPass b).map (fun ch => cntL U ch.themes) =
      b.map (fun ch => cntL U ch.themes) := by
  induction b with
  | nil => rfl
  | cons ch chs ih =>
      simp only [evenPass, List.map_cons] at ih ⊢
      rw [ih]
      congr 1
      split_ifs with hodd
      · simp only [cntL_append, cntL_cons, cntL_nil, fillerTheme_type]
        rw [if_neg (fun hx => hU hx.symm)]
        omega
      · rfl

/-- C2 counterexample: reconciling one section holding a single lecture
theme with targets `(1, 0, 0)` appends the filler, yet the section's
lecture + lab count stays odd — the claimed evenness invariant is false. -/
theorem c2_evenness_counterexample :
    (reconcile 1 0 0 oneLecOutline).map
      (fun ch => (cntL "лекция" ch.themes + cntL "лабораторная" ch.themes) % 2) = [1] := by
  decide

/-- C2 amended: the final pass appends exactly one synthetic СРО filler
theme to a section iff that section's lecture + lab count is odd, and it
leaves every section's lecture and lab counts unchanged — so the parity of
`lecture + lab` per section is preserved, not made even. -/
theorem c2_even_filler_pass (t1 t2 t3 : Nat) (chs : List Chapter) :
    ((reconcile t1 t2 t3 chs).map (fun ch => ch.themes.length) =
      (balanceAll t1 t2 t3 chs).map (fun ch =>
        ch.themes.length +
          (if (cntL "лекция" ch.themes + cntL "лабораторная" ch.themes) % 2 = 1
           then 1 else 0))) ∧
    ((reconcile t1 t2 t3 chs).map (fun ch => cntL "лекция" ch.themes) =
      (balanceAll t1 t2 t3 chs).map (fun ch => cntL "лекция" ch.themes)) ∧
    ((reconcile t1 t2 t3 chs).map (fun ch => cntL "лабораторная" ch.themes) =
      (balanceAll t1 t2 t3 chs).map (fun ch => cntL "лабораторная" ch.themes)) ∧
    fillerTheme.normalizedType = "сро" :=
  ⟨evenPass_map_len _, evenPass_map_cnt _ (by decide) _,
   evenPass_map_cnt _ (by decide) _, rfl⟩

/-! ### Claim C5 -/

/-- C5 counterexample: with all three targets zero and one lecture theme in
the outline, the zero-target Lecture type drives `balancingSuccess` to
false, contradicting the claim that zero-target types never do. -/
theorem c5_zero_target_counterexample :
    countType "лекция" (reconcile 0 0 0 oneLecOutline) = 1 ∧
    balancingSuccess 0 0 0 (reconcile 0 0 0 oneLecOutline) = false := by
  constructor
  · decide
  · decide

/-- C5 amended: `balancingSuccess` is the conjunction of an unconditional
count match for Lecture and Lab and a Practice match that is exempted only
when the practice target is zero; zero-target Lecture or Lab types with
surplus themes do make it false. -/
theorem c5_balancing_success (t1 t2 t3 : Nat) (chs : List Chapter) :
    balancingSuccess t1 t2 t3 chs = true ↔
      (countType "лекция" chs = t1 ∧ countType "лабораторная" chs = t2 ∧
        (t3 = 0 ∨ countType "практика" chs = t3)) := by
  unfold balancingSuccess lecturesMatch labsMatch practicesMatch
  rw [finalCount_lec, finalCount_lab, finalCount_pr]
  simp only [Bool.and_eq_true, Bool.or_eq_true, beq_iff_eq]
  tauto

/-! ### Claim C6 -/

theorem mapWorkTypeLabel_mem (x : String) :
    (mapWorkTypeLabel x).getD "сро" ∈
      (["лекция", "лабораторная", "практика", "сро", "консультация"] : List String) := by
  unfold mapWorkTypeLabel
  split_ifs <;> decide

/-- C6 counterexample: a theme labeled `(консультация)` is normalised to the
fifth type value `консультация`, outside the claimed four-value set. -/
theorem c6_normalized_type_counterexample :
    (normalizeTheme { name := "Тема (консультация)" }).normalizedType = "консультация" ∧
    "консультация" ∉ (["лекция", "лабораторная", "практика", "сро"] : List String) := by
  constructor
  · rfl
  · decide

/-- C6 amended: `normalizedType` always lies in the five-value set
\{лекция, лабораторная, практика, сро, консультация\}, and a missing or
unrecognised label still resolves to СРО. -/
theorem c6_normalized_type (t : Theme) :
    (normalizeTheme t).normalizedType ∈
      (["лекция", "лабораторная", "практика", "сро", "консультация"] : List String) ∧
    ((normalizeTheme t).label = none → (normalizeTheme t).normalizedType = "сро") ∧
    (∀ l, (normalizeTheme t).label = some l → mapWorkTypeLabel l = none →
      (normalizeTheme t).normalizedType = "сро") := by
  rcases h : splitTrailingParen t.name.data with _ | ⟨base, content⟩
  · refine ⟨?_, ?_, ?_⟩
    · simp [normalizeTheme, h]
    · intro _
      simp [normalizeTheme, h]
    · intro l hl
      simp [normalizeTheme, h] at hl
  · refine ⟨?_, ?_, ?_⟩
    · simp only [normalizeTheme, h]
      exact mapWorkTypeLabel_mem _
    · intro hl
      simp [normalizeTheme, h] at hl
    · intro l hl hnone
      simp only [normalizeTheme, h, Option.some.injEq] at hl
      simp only [normalizeTheme, h]
      rw [hl, hnone]
      rfl

/-- Witness for C6 at concrete inputs: an unrecognised label and a missing
label both resolve to СРО. -/
theorem c6_normalized_type_witness :
    (normalizeTheme { name := "Тема (xyz)" }).normalizedType = "сро" ∧
    (normalizeTheme { name := "Тема" }).normalizedType = "сро" := by
  constructor
  · exact (c6_normalized_type { name := "Тема (xyz)" }).2.2 "xyz" (by decide) (by decide)
  · exact (c6_normalized_type { name := "Тема" }).2.1 (by decide)

/-! ### Claim C8 -/

theorem balanceStep_self (t : Nat) (T : String) (chs : List Chapter) :
    balanceStep t t T chs = chs := by
  unfold balanceStep
  split_ifs with h1 h2
  · rfl
  · exact absurd h2 (Nat.lt_irrefl t)
  · rfl

theorem evenPass_of_even (chs : List Chapter)
    (h : ∀ ch ∈ chs, (cntL "лекция" ch.themes + cntL "лабораторная" ch.themes) % 2 = 0) :
    evenPass chs = chs := by
  induction chs with
  | nil => rfl
  | cons ch chs ih =>
      simp only [evenPass, List.map_cons]
      rw [if_neg (by
        have := h ch (List.mem_cons_self ch chs)
        omega)]
      have ihh := ih (fun c hc => h c (List.mem_cons_of_mem ch hc))
      simp only [evenPass] at ihh
      rw [ihh]

/-- C8 counterexample: an outline whose counts already equal the targets
`(1, 0, 0)` is still changed by reconciliation — the evenness filler pass
appends a theme to the odd section. -/
theorem c8_idempotence_counterexample :
    countType "лекция" oneLecOutline = 1 ∧
    countType "лабораторная" oneLecOutline = 0 ∧
    countType "практика" oneLecOutline = 0 ∧
    reconcile 1 0 0 oneLecOutline ≠ oneLecOutline := by
  refine ⟨by decide, by decide, by decide, by decide⟩

/-- C8 amended: if the outline's counts already equal the targets and every
section's lecture + lab count is even, reconciliation is the identity. -/
theorem c8_idempotence (t1 t2 t3 : Nat) (chs : List Chapter)
    (h1 : countType "лекция" chs = t1) (h2 : countType "лабораторная" chs = t2)
    (h3 : countType "практика" chs = t3)
    (heven : ∀ ch ∈ chs,
      (cntL "лекция" ch.themes + cntL "лабораторная" ch.themes) % 2 = 0) :
    reconcile t1 t2 t3 chs = chs := by
  rw [reconcile, balanceAll_eq, h1, balanceStep_self, h2, balanceStep_self, h3,
    balanceStep_self]
  exact evenPass_of_even chs heven

/-- Witness for C8 at a concrete input: a one-section outline with one
lecture and one lab theme and targets `(1, 1, 0)` is left unchanged. -/
theorem c8_idempotence_witness : reconcile 1 1 0 evenOutline = evenOutline :=
  c8_idempotence 1 1 0 evenOutline (by decide) (by decide) (by decide) (by decide)

/-! ### Claim C3 -/

/-- C3: the deficit branch first retypes existing СРО themes, scanning
sections in order and themes in order within each section (the nested loop
equals the flat scan on the flattened outline, and position `m` is retyped
iff it holds an СРО theme with fewer than `k` СРО themes before it),
converting exactly `min(deficit, available)` themes; the remaining deficit
is synthesised as placeholder themes named
`Дополнительная тема <i> (<T>)` appended round-robin starting from the
first section and wrapping, and synthesis happens only when at least one
section exists. -/
theorem c3_deficit_branch (T : String) (k : Nat) (chs : List Chapter) :
    (allThemes (convertChapters T k chs).1 = (convertList T k (allThemes chs)).1) ∧
    ((convertChapters T k chs).2 = min k (countType "сро" chs)) ∧
    (∀ (l : List Theme) (m : Nat), m < l.length →
      (convertList T k l).1.getD m defaultTheme =
        (if (l.getD m defaultTheme).normalizedType = "сро" ∧ cntL "сро" (l.take m) < k
         then convTheme T (l.getD m defaultTheme)
         else l.getD m defaultTheme)) ∧
    (addBranch T k [] = []) ∧
    (chs ≠ [] →
      totalThemes (addBranch T k chs) =
        totalThemes chs + (k - min k (countType "сро" chs))) ∧
    (∀ (r i : Nat) (chs2 : List Chapter) (j : Nat), j < chs2.length →
      ((synthFrom T i r chs2).getD j defaultChapter).themes =
        (chs2.getD j defaultChapter).themes ++
          ((idxRange i r).filter (fun m => m % chs2.length = j)).map (addTheme T)) ∧
    ((addTheme T k).name = "Дополнительная тема " ++ toString (k + 1) ++ " (" ++ T ++ ")") :=
  ⟨convertChapters_fst_flatten T k chs,
   convertChapters_snd_min T k chs,
   fun l m hm => convertList_getD T k l m hm,
   addBranch_nil T k,
   addBranch_total T k chs,
   fun r i chs2 j hj => synthFrom_getD T r i chs2 j hj,
   rfl⟩

/-- Witness for C3 at concrete inputs: converting towards a lecture deficit
of 2 with one СРО theme available adds exactly one synthesised theme, and
the first synthesised placeholder lands in the first section. -/
theorem c3_deficit_branch_witness :
    (deficitOutline ≠ [] ∧
      totalThemes (addBranch "лекция" 2 deficitOutline) = totalThemes deficitOutline + 1) ∧
    ((0 : Nat) < deficitOutline.length ∧
      ((synthFrom "лекция" 0 2 deficitOutline).getD 0 defaultChapter).themes =
        (deficitOutline.getD 0 defaultChapter).themes ++ [addTheme "лекция" 0]) ∧
    ((0 : Nat) < ([sroTheme, lecTheme] : List Theme).length ∧
      (convertList "лекция" 2 [sroTheme, lecTheme]).1.getD 0 defaultTheme =
        convTheme "лекция" sroTheme) := by
  refine ⟨⟨by decide, ?_⟩, ⟨by decide, ?_⟩, ⟨by decide, ?_⟩⟩
  · have h := (c3_deficit_branch "лекция" 2 deficitOutline).2.2.2.2.1 (by decide)
    rw [h]
    decide
  · have h := (c3_deficit_branch "лекция" 2 deficitOutline).2.2.2.2.2.1 2 0
      deficitOutline 0 (by decide)
    rw [h]
    decide
  · have h := (c3_deficit_branch "лекция" 2 deficitOutline).2.2.1
      [sroTheme, lecTheme] 0 (by decide)
    rw [h]
    decide

/-! ### Claim C4 -/

/-- C4: the surplus branch scans sections in order and themes from the end
backward within each section (chapter `j` is demoted with the budget left
by earlier chapters, and position `m` of a section is demoted iff it holds
a `T` theme with fewer than `budget` `T` themes after it), demotes exactly
`|deficit|` themes when at least that many exist, never deletes a theme
(per-section theme counts are preserved), and the total theme count is
monotonically non-decreasing through the whole reconciliation. -/
theorem c4_surplus_branch (T : String) (hT : T ≠ "сро") (k : Nat) (chs : List Chapter) :
    ((demoteChapters T k chs).1.map (fun ch => ch.themes.length) =
      chs.map (fun ch => ch.themes.length)) ∧
    ((demoteChapters T k chs).2 = min k (countType T chs)) ∧
    (k ≤ countType T chs → (demoteChapters T k chs).2 = k) ∧
    (countType T (demoteChapters T k chs).1 = countType T chs - min k (countType T chs)) ∧
    (countType "сро" (demoteChapters T k chs).1 =
      countType "сро" chs + min k (countType T chs)) ∧
    (∀ j, j < chs.length →
      (demoteChapters T k chs).1.getD j defaultChapter =
        { chs.getD j defaultChapter with
            themes := (demoteList T (k - min k (countType T (chs.take j)))
              (chs.getD j defaultChapter).themes).1 }) ∧
    (∀ (l : List Theme) (m : Nat), m < l.length →
      (demoteList T k l).1.getD m defaultTheme =
        (if (l.getD m defaultTheme).normalizedType = T ∧ cntL T (l.drop (m + 1)) < k
         then demoteTheme (l.getD m defaultTheme)
         else l.getD m defaultTheme)) ∧
    (∀ t1 t2 t3, totalThemes chs ≤ totalThemes (reconcile t1 t2 t3 chs)) := by
  refine ⟨demoteChapters_theme_lengths T k chs,
          demoteChapters_snd T k chs, ?_,
          demoteChapters_cnt_self T hT k chs,
          demoteChapters_cnt_sro T hT k chs,
          fun j hj => demoteChapters_getD T k chs j hj,
          fun l m hm => demoteList_getD T k l m hm,
          fun t1 t2 t3 => reconcile_total t1 t2 t3 chs⟩
  intro hk
  rw [demoteChapters_snd]
  omega

/-- Witness for C4 at concrete inputs: demoting one lecture theme from an
outline holding exactly one demotes exactly one, the head of a two-theme
section is demoted when the budget is not yet exhausted by the later
themes, and reconciliation does not shrink the outline. -/
theorem c4_surplus_branch_witness :
    ((1 : Nat) ≤ countType "лекция" evenOutline ∧
      (demoteChapters "лекция" 1 evenOutline).2 = 1) ∧
    ((0 : Nat) < ([lecTheme, labTheme] : List Theme).length ∧
      (demoteList "лекция" 1 [lecTheme, labTheme]).1.getD 0 defaultTheme =
        demoteTheme lecTheme) ∧
    totalThemes evenOutline ≤ totalThemes (reconcile 0 0 0 evenOutline) := by
  refine ⟨⟨by decide, ?_⟩, ⟨by decide, ?_⟩, ?_⟩
  · exact (c4_surplus_branch "лекция" (by decide) 1 evenOutline).2.2.1 (by decide)
  · have h := (c4_surplus_branch "лекция" (by decide) 1 evenOutline).2.2.2.2.2.2.1
      [lecTheme, labTheme] 0 (by decide)
    rw [h]
    decide
  · exact (c4_surplus_branch "лекция" (by decide) 1 evenOutline).2.2.2.2.2.2.2 0 0 0

/-! ### Claim C7 -/

theorem list_sum_map_add (f g : Nat → Nat) (l : List Nat) :
    (l.map (fun i => f i + g i)).sum = (l.map f).sum + (l.map g).sum := by
  induction l with
  | nil => rfl
  | cons x xs ih =>
      simp only [List.map_cons, List.sum_cons, ih]
      omega

theorem list_sum_map_const (c : Nat) (l : List Nat) :
    (l.map (fun _ => c)).sum = l.length * c := by
  induction l with
  | nil => simp
  | cons x xs ih =>
      simp only [List.map_cons, List.sum_cons, ih, List.length_cons, Nat.succ_mul]
      omega

theorem range_map_indicator_lt (q n : Nat) :
    ((List.range n).map (fun i => if i < q then (1 : Nat) else 0)).sum = min q n := by
  induction n with
  | zero => simp
  | succ n ih =>
      rw [List.range_succ, List.map_append, List.sum_append]
      simp only [List.map_cons, List.map_nil, List.sum_cons, List.sum_nil]
      rw [ih]
      by_cases h : n < q
      · rw [if_pos h]
        omega
      · rw [if_neg h]
        omega

theorem range_map_last_indicator (n b : Nat) (hn : 0 < n) :
    ((List.range n).map (fun i => if i = n - 1 then b else 0)).sum = b := by
  match n, hn with
  | n + 1, _ =>
      rw [List.range_succ, List.map_append, List.sum_append]
      simp only [List.map_cons, List.map_nil, List.sum_cons, List.sum_nil]
      have h1 : ∀ x ∈ (List.range n).map
          (fun i => if i = n + 1 - 1 then b else 0), x = 0 := by
        intro x hx
        simp only [List.mem_map, List.mem_range] at hx
        obtain ⟨i, hi, hx⟩ := hx
        rw [← hx, if_neg (by omega)]
      rw [List.sum_eq_zero h1]
      simp

/-- The whole СРО quota is distributed: per-chapter shares sum to the
quota. -/
theorem sroHours_sum (q n : Nat) (hn : n ≠ 0) :
    ((List.range n).map (fun i => sroHoursForChapter q n i)).sum = q := by
  by_cases h : q < n
  · have he : ∀ i : Nat, sroHoursForChapter q n i = if i < q then 1 else 0 := by
      intro i
      simp [sroHoursForChapter, h]
    simp only [he]
    rw [range_map_indicator_lt]
    omega
  · have he : ∀ i : Nat, sroHoursForChapter q n i =
        q / n + (if i = n - 1 then q % n else 0) := by
      intro i
      simp [sroHoursForChapter, h]
    simp only [he]
    rw [list_sum_map_add (fun _ => q / n) (fun i => if i = n - 1 then q % n else 0)]
    rw [list_sum_map_const, List.length_range,
      range_map_last_indicator n (q % n) (by omega)]
    have := Nat.div_add_mod q n
    omega

/-- C7: submitted hours are `count * 2` for every non-СРО work type (`count`
itself for СРО), and the СРО quota is split across sections exactly as
described: one hour each to the first `quota` sections when the quota is
below the section count, otherwise `⌊quota / n⌋` each with the remainder on
the last section; the shares always sum to the quota. -/
theorem c7_hour_projection (w : WorkType) (c q n i : Nat) :
    (isSroPayloadName w.name = false → payloadHours w c = c * 2) ∧
    (isSroPayloadName w.name = true → payloadHours w c = c) ∧
    (n ≠ 0 → ((List.range n).map (fun j => sroHoursForChapter q n j)).sum = q) ∧
    (q < n → sroHoursForChapter q n i = if i < q then 1 else 0) ∧
    (n ≤ q → sroHoursForChapter q n i =
      q / n + (if i = n - 1 then q % n else 0)) := by
  refine ⟨?_, ?_, sroHours_sum q n, ?_, ?_⟩
  · intro h
    simp [payloadHours, h]
  · intro h
    simp [payloadHours, h]
  · intro h
    simp [sroHoursForChapter, h]
  · intro h
    simp [sroHoursForChapter, Nat.not_lt.mpr h]

/-- Witness for C7 at concrete inputs. -/
theorem c7_hour_projection_witness :
    (isSroPayloadName "Лекции" = false ∧
      payloadHours { name := "Лекции", hours := 30, program_work_type_id := 1 } 3 = 6) ∧
    ((4 : Nat) ≠ 0 ∧
      ((List.range 4).map (fun j => sroHoursForChapter 10 4 j)).sum = 10) ∧
    ((2 : Nat) < 4 ∧ sroHoursForChapter 2 4 1 = 1) := by
  refine ⟨⟨by decide, ?_⟩, ⟨by decide, ?_⟩, ⟨by decide, ?_⟩⟩
  · exact (c7_hour_projection ⟨"Лекции", 30, 1⟩ 3 10 4 1).1 (by decide)
  · exact (c7_hour_projection ⟨"Лекции", 30, 1⟩ 3 10 4 1).2.2.1 (by decide)
  · have h := (c7_hour_projection ⟨"Лекции", 30, 1⟩ 3 2 4 1).2.2.2.1 (by decide)
    rw [h]
    decide

/-! ### Claim C9 -/

theorem parseLineStep_initial (line : String) (h : isHeadingLine line = false) :
    parseLineStep ([], none) line = ([], none) := by
  unfold parseLineStep
  rw [h]
  simp only [Bool.false_eq_true, if_false]
  split <;> rfl

theorem foldl_parse_no_heading (pre : List String)
    (h : ∀ l ∈ pre, isHeadingLine l = false) :
    pre.foldl parseLineStep ([], none) = ([], none) := by
  induction pre with
  | nil => rfl
  | cons l ls ih =>
      rw [List.foldl_cons, parseLineStep_initial l (h l (List.mem_cons_self l ls))]
      exact ih (fun x hx => h x (List.mem_cons_of_mem l hx))

/-- C9: when no line matches the numbered-heading pattern the parser
returns the empty section list (it is a total function, so no error is
raised), and every line before the first heading — blank or not — is
discarded: a heading-free prefix contributes nothing to the parse. -/
theorem c9_parser_no_heading (lines pre rest : List String) (text : String) :
    ((∀ l ∈ lines, isHeadingLine l = false) → parseChapters lines = []) ∧
    ((∀ l ∈ pre, isHeadingLine l = false) →
      parseChapters (pre ++ rest) = parseChapters rest) ∧
    ((∀ l ∈ splitLines text, isHeadingLine l = false) → parseOutline text = []) := by
  have hskip : ∀ (p r : List String), (∀ l ∈ p, isHeadingLine l = false) →
      parseChapters (p ++ r) = parseChapters r := by
    intro p r hp
    unfold parseChapters
    rw [List.foldl_append, foldl_parse_no_heading p hp]
  refine ⟨?_, hskip pre rest, ?_⟩
  · intro h
    have := hskip lines [] h
    simpa using this
  · intro h
    unfold parseOutline
    have := hskip (splitLines text) [] h
    simpa using this

/-- Witness for C9 at concrete inputs: a heading-free text parses to no
sections, and a heading-free prefix before a heading is dropped. -/
theorem c9_parser_no_heading_witness :
    parseChapters ["привет", " - тема (лекция)"] = [] ∧
    parseChapters (["привет"] ++ ["1. Раздел", " - тема"]) =
      parseChapters ["1. Раздел", " - тема"] ∧
    parseOutline "привет мир" = [] := by
  refine ⟨?_, ?_, ?_⟩
  · exact (c9_parser_no_heading ["привет", " - тема (лекция)"] [] [] "").1 (by decide)
  · exact (c9_parser_no_heading [] ["привет"] ["1. Раздел", " - тема"] "").2.1 (by decide)
  · exact (c9_parser_no_heading [] [] [] "привет мир").2.2 (by decide)

/-! ### Claim C10 -/

theorem isPrefixOfB_iff (a b : List Char) : isPrefixOfB a b = true ↔ a <+: b := by
  induction a generalizing b with
  | nil => simp [isPrefixOfB]
  | cons x xs ih =>
      cases b with
      | nil => simp [isPrefixOfB]
      | cons y ys =>
          simp [isPrefixOfB, Bool.and_eq_true, decide_eq_true_eq, ih,
            List.cons_prefix_cons]

theorem containsSub_iff (a b : List Char) : containsSub a b = true ↔ a <:+: b := by
  induction b with
  | nil =>
      simp [containsSub, List.isEmpty_iff, List.infix_nil]
  | cons x xs ih =>
      simp [containsSub, Bool.or_eq_true, isPrefixOfB_iff, ih, List.infix_cons_iff]

/-- A name containing the longer needle contains the shorter one. -/
theorem includesLower_mono (n1 n2 : String)
    (hms : containsSub n1.data n2.data = true) (s : String)
    (h : includesLower n2 s = true) : includesLower n1 s = true := by
  unfold includesLower at h ⊢
  rw [containsSub_iff] at hms h ⊢
  exact hms.trans h

/-- C10: the standalone-СРО cleanup removes a section whose name carries
independent-study terminology whenever all its themes do — vacuously when it
has no themes at all — so after the cleanup passes every surviving section
whose name contains `самостоятельн` still holds at least one theme; in
particular an empty section so titled never reaches reconciliation. -/
theorem c10_standalone_sro_removal (chs : List Chapter) :
    (∀ ch ∈ removeStandaloneSro chs,
      includesLower "самостоятельн" ch.name = true → ch.themes ≠ []) ∧
    (∀ ch ∈ cleanupChapters chs,
      includesLower "самостоятельн" ch.name = true → ch.themes ≠ []) := by
  have hsur : ∀ ch ∈ removeStandaloneSro chs,
      includesLower "самостоятельн" ch.name = true →
      ∃ t ∈ ch.themes, includesLower "самостоятельн" t.name = false ∧
        includesLower "сро" t.name = false := by
    intro ch hch hname
    rw [removeStandaloneSro, List.mem_filter] at hch
    obtain ⟨-, hkeep⟩ := hch
    rw [Bool.not_eq_true'] at hkeep
    unfold isStandaloneSro at hkeep
    rw [hname, Bool.true_and] at hkeep
    have hnall : ¬ (ch.themes.all (fun t =>
        includesLower "самостоятельн" t.name || includesLower "сро" t.name) = true) := by
      rw [hkeep]
      exact fun hx => Bool.noConfusion hx
    rw [List.all_eq_true] at hnall
    push_neg at hnall
    obtain ⟨t, ht, hfail⟩ := hnall
    have hor : (includesLower "самостоятельн" t.name ||
        includesLower "сро" t.name) = false := by
      rcases Bool.eq_false_or_eq_true (includesLower "самостоятельн" t.name ||
        includesLower "сро" t.name) with htr | hf
      · exact absurd htr hfail
      · exact hf
    rw [Bool.or_eq_false_iff] at hor
    exact ⟨t, ht, hor.1, hor.2⟩
  constructor
  · intro ch hch hname
    obtain ⟨t, ht, -⟩ := hsur ch hch hname
    exact List.ne_nil_of_mem ht
  · intro ch hch hname
    unfold cleanupChapters removeRedundantSro at hch
    rw [List.mem_map] at hch
    obtain ⟨c, hc, hceq⟩ := hch
    have hcname : includesLower "самостоятельн" c.name = true := by
      rw [← hceq] at hname
      exact hname
    obtain ⟨t, ht, htn, -⟩ := hsur c hc hcname
    have hred : isRedundantSroTheme t = false := by
      unfold isRedundantSroTheme
      rcases Bool.eq_false_or_eq_true
          (includesLower "самостоятельная работа по теме" t.name) with hT | hF
      · exfalso
        have hcontra : includesLower "самостоятельн" t.name = true :=
          includesLower_mono _ _ (by decide) _ hT
        rw [hcontra] at htn
        exact Bool.noConfusion htn
      · simp [hF]
    have hmem : t ∈ ch.themes := by
      rw [← hceq]
      simp only [List.mem_filter]
      exact ⟨ht, by rw [hred]; rfl⟩
    exact List.ne_nil_of_mem hmem

/-- Witness for C10 at a concrete input: the empty СРО-titled section of
`cleanupOutline` is removed, while the СРО-titled section with a real theme
survives with its theme intact. -/
theorem c10_standalone_sro_removal_witness :
    ({ name := "Самостоятельная подготовка",
       themes := [{ name := "Обычная тема" }] } : Chapter).themes ≠ [] ∧
    removeStandaloneSro cleanupOutline =
      [{ name := "Основы", themes := [{ name := "Тема 1 (лекция)" }] },
       { name := "Самостоятельная подготовка",
         themes := [{ name := "Обычная тема" }] }] := by
  constructor
  · exact (c10_standalone_sro_removal cleanupOutline).2
      { name := "Самостоятельная подготовка", themes := [{ name := "Обычная тема" }] }
      (by decide) (by decide)
  · decide

end DisciplineEvaluator
